import Mathlib

/-!
Verification of the `nix-path-pkgs` core (src/main.rs) against its
natural-language specification.

Strings that the Rust code manipulates through byte offsets (`&str` with
`get`, `as_bytes`, `is_char_boundary`, byte slicing) are modelled as lists
of bytes (`List Nat`), with Rust's own character-boundary test reproduced
byte for byte.  Machine integers are `Nat` (the TTL is a `u64`, so parsing
enforces the `2 ^ 64` width bound explicitly).  Fallible operations return
`Option`/`Except`; a Rust panic is modelled as `Except.error`.

The process environment, the filesystem cache and the two external `nix`
invocations are modelled as an explicit `Env` record, and the observable
side effects of a run are collected in an `Event` trace.
-/

set_option autoImplicit false

namespace NixPathPkgs

/-! ### Byte-level string model -/

/-- A UTF-8 continuation byte (`0x80 ..= 0xBF`); Rust's
`is_char_boundary` is exactly "not a continuation byte". -/
def isCont (b : Nat) : Bool := decide (0x80 ≤ b ∧ b < 0xC0)

/-- ASCII digit byte, as in `u8::is_ascii_digit`. -/
def isDigitByte (b : Nat) : Bool := decide (0x30 ≤ b ∧ b ≤ 0x39)

/-- Bytes of an ASCII Lean string literal (used only for ASCII constants,
where code point = byte). -/
def strBytes (s : String) : List Nat := s.data.map Char.toNat

/-- Rust `str::is_char_boundary(i)`: true at 0; otherwise the byte at `i`
must not be a continuation byte, or `i` must equal the length. -/
def isCharBoundary (l : List Nat) (i : Nat) : Bool :=
  if i = 0 then true
  else
    match l.get? i with
    | some b => !isCont b
    | none => decide (i = l.length)

/-- Rust `str::get(i..j)`: `Some` slice when `i ≤ j` and both ends are
character boundaries (which forces `j ≤ len`), `None` otherwise. -/
def strSliceGet (l : List Nat) (i j : Nat) : Option (List Nat) :=
  if i ≤ j ∧ isCharBoundary l i = true ∧ isCharBoundary l j = true then
    some ((l.drop i).take (j - i))
  else none

/-- Strict UTF-8 validity of a byte sequence (the check behind
`std::str::from_utf8`), written as the usual table of lead-byte ranges. -/
def validUtf8 : List Nat → Bool
  | [] => true
  | b :: rest =>
    if b < 0x80 then validUtf8 rest
    else if 0xC2 ≤ b ∧ b ≤ 0xDF then
      match rest with
      | c :: r => isCont c && validUtf8 r
      | [] => false
    else if b = 0xE0 then
      match rest with
      | c1 :: c2 :: r => decide (0xA0 ≤ c1 ∧ c1 ≤ 0xBF) && isCont c2 && validUtf8 r
      | _ => false
    else if (0xE1 ≤ b ∧ b ≤ 0xEC) ∨ b = 0xEE ∨ b = 0xEF then
      match rest with
      | c1 :: c2 :: r => isCont c1 && isCont c2 && validUtf8 r
      | _ => false
    else if b = 0xED then
      match rest with
      | c1 :: c2 :: r => decide (0x80 ≤ c1 ∧ c1 ≤ 0x9F) && isCont c2 && validUtf8 r
      | _ => false
    else if b = 0xF0 then
      match rest with
      | c1 :: c2 :: c3 :: r =>
        decide (0x90 ≤ c1 ∧ c1 ≤ 0xBF) && isCont c2 && isCont c3 && validUtf8 r
      | _ => false
    else if 0xF1 ≤ b ∧ b ≤ 0xF3 then
      match rest with
      | c1 :: c2 :: c3 :: r => isCont c1 && isCont c2 && isCont c3 && validUtf8 r
      | _ => false
    else if b = 0xF4 then
      match rest with
      | c1 :: c2 :: c3 :: r =>
        decide (0x80 ≤ c1 ∧ c1 ≤ 0x8F) && isCont c2 && isCont c3 && validUtf8 r
      | _ => false
    else false

/-! ### Store-path parser (`hash_and_name`, main.rs lines 136-153) -/

/-- The bytes of the store prefix `"/nix/store/"` (11 ASCII bytes). -/
def nixStoreRoot : List Nat := strBytes "/nix/store/"

/-- The version-cut loop of `hash_and_name`: the first index `i` with
`b[i] == b'-'` and `b.get(i+1)` an ASCII digit; `b.len()` when there is
no such index. -/
def findCut : List Nat → Nat
  | [] => 0
  | _ :: [] => 1
  | x :: y :: rest =>
    if x = 0x2D ∧ isDigitByte y = true then 0 else findCut (y :: rest) + 1

/-- The "item" token of a store path: the bytes after `"<hash>-"` up to
the next `'/'` (what `rest.split('/').next()` yields in the source). -/
def itemOf (dir : List Nat) : List Nat :=
  (dir.drop 44).takeWhile (fun b => b ≠ 0x2F)

/-- `hash_and_name` from main.rs.  `Except.error ()` models the panic the
slice expression `&item[..cut]` would raise on a non-boundary cut;
`Except.ok none` is the `None` return. -/
def hash_and_name (dir : List Nat) :
    Except Unit (Option (List Nat × List Nat)) :=
  if dir.take 11 ≠ nixStoreRoot ∨ dir.length < 44 ∨ dir.get? 43 ≠ some 0x2D then
    Except.ok none
  else
    match strSliceGet dir 11 43, strSliceGet dir 44 dir.length with
    | some hash, some rest =>
      let item := rest.takeWhile (fun b => b ≠ 0x2F)
      let cut := findCut item
      if isCharBoundary item cut = true then Except.ok (some (hash, item.take cut))
      else Except.error ()
    | _, _ => Except.ok none

/-! ### Closure parsing (`parse_hashes`, main.rs lines 99-134) -/

/-- The scanning loop of `parse_hashes`, with the loop index made explicit
and fuel bounding the number of iterations (each iteration advances the
index by at least one, so `json.length` fuel is enough). -/
def scanHashes (json : List Nat) : Nat → Nat → List (List Nat)
  | _, 0 => []
  | i, fuel + 1 =>
    if i < json.length then
      if (json.drop i).take 11 = nixStoreRoot then
        if i + 43 < json.length ∧ json.get? (i + 43) = some 0x2D ∧
            isCharBoundary json (i + 11) = true ∧ isCharBoundary json (i + 43) = true then
          ((json.drop (i + 11)).take 32) :: scanHashes json (i + 43) fuel
        else scanHashes json (i + 1) fuel
      else scanHashes json (i + 1) fuel
    else []

/-- `parse_hashes`: on non-UTF-8 input an empty set; otherwise the scan.
The `HashSet` is modelled as a list used only through membership. -/
def parse_hashes (json : List Nat) : List (List Nat) :=
  if validUtf8 json = true then scanHashes json 0 json.length else []

/-! ### Reconciler (`main`, main.rs lines 41-62) -/

/-- The static `SKIP` exclusion list. -/
def SKIP : List (List Nat) :=
  [strBytes "bash-interactive", strBytes "ghostty", strBytes "ghostty-bin"]

/-- Split a byte string at `':'` (Rust `str::split(':')`, which yields
one (possibly empty) segment more than the number of separators). -/
def splitOnColon : List Nat → List (List Nat)
  | [] => [[]]
  | b :: rest =>
    if b = 0x3A then [] :: splitOnColon rest
    else
      match splitOnColon rest with
      | s :: ss => (b :: s) :: ss
      | [] => [[b]]

/-- `path.split(':').filter(|s| !s.is_empty())`. -/
def splitPath (path : List Nat) : List (List Nat) :=
  (splitOnColon path).filter (fun s => s ≠ [])

/-- The `for dir in ...` loop of `main`: `seen` models the `HashSet`
(`insert` returning `true` becomes a membership test), `ordered` the
output vector. -/
def reconcileGo (ignore : List (List Nat)) (seen ordered : List (List Nat)) :
    List (List Nat) → List (List Nat)
  | [] => ordered
  | dir :: rest =>
    match hash_and_name dir with
    | Except.ok (some (h, name)) =>
      if h ∈ ignore ∨ name ∈ SKIP ∨ name = [] then reconcileGo ignore seen ordered rest
      else if name ∈ seen then reconcileGo ignore seen ordered rest
      else reconcileGo ignore (name :: seen) (ordered ++ [name]) rest
    | _ => reconcileGo ignore seen ordered rest

/-- The whole PATH walk of `main` (split, parse, filter, dedup). -/
def reconcile (ignore : List (List Nat)) (path : List Nat) : List (List Nat) :=
  reconcileGo ignore [] [] (splitPath path)

/-- `ordered.join(", ")`. -/
def joinCS (names : List (List Nat)) : List Nat :=
  List.intercalate [0x2C, 0x20] names

/-! ### Configuration (`main`, main.rs lines 18-21) -/

/-- Rust `u64::from_str`: optional leading `'+'`, then at least one ASCII
digit, and the value must fit in 64 bits (`PosOverflow` otherwise).  A
leading `'-'` is an invalid digit for an unsigned type. -/
def parseU64 (s : String) : Option Nat :=
  let ds := if s.data.head? = some '+' then s.data.tail else s.data
  if ds ≠ [] ∧ ds.all Char.isDigit = true then
    let n := ds.foldl (fun a c => a * 10 + (c.toNat - 48)) 0
    if n < 2 ^ 64 then some n else none
  else none

/-- The TTL configuration line of `main`: absent or unparseable
environment variable falls back to 3600. -/
def parseTtl (o : Option String) : Nat :=
  (o.bind parseU64).getD 3600

/-! ### Run model: environment, events, cache, main -/

/-- Observable side effects of one run: the lightweight cache-key `nix`
call, an actual cache-file read, a cache-file write (attempt), and the
full-closure `nix eval` call. -/
inductive Event where
  | keyQuery : Event
  | cacheFileRead : Event
  | cacheFileWrite : Event
  | fullQuery : Event
deriving DecidableEq

/-- The ambient state of a run: environment variables, the outcome the
two external `nix` calls would produce, the cache directory contents
(key to bytes and last-modified time, in whole seconds) and the clock. -/
structure Env where
  ttlStr : Option String
  keyQueryResult : Option String
  evalResult : Except Unit (List Nat)
  cache : String → Option (List Nat × Nat)
  now : Nat
  searchPath : List Nat

/-- `get_cache_key` (main.rs lines 65-83): one `nix` call; `none` covers
spawn failure, non-zero exit and non-UTF-8 output alike. -/
def get_cache_key (env : Env) : Option String × List Event :=
  (env.keyQueryResult, [Event.keyQuery])

/-- The metadata-and-freshness part of `read_cache`: a missing entry is a
miss; a present entry is returned exactly when its modification time is
not in the future and its age is at most the TTL (`duration_since` fails
on a future timestamp, and `.ok()` turns that failure into a miss).
`Event.cacheFileRead` marks an actual file read. -/
def lookupFresh (env : Env) (ttlSecs : Nat) :
    Option (List Nat × Nat) → Option (List Nat) × List Event
  | none => (none, [])
  | some (bytes, mtime) =>
    if mtime ≤ env.now ∧ env.now - mtime ≤ ttlSecs then
      (some bytes, [Event.cacheFileRead])
    else (none, [])

/-- `read_cache` (main.rs lines 200-221): no key means no lookup at all,
otherwise look the key up and check freshness. -/
def read_cache (env : Env) (ttlSecs : Nat) :
    Option String → Option (List Nat) × List Event
  | none => (none, [])
  | some k => lookupFresh env ttlSecs (env.cache k)

/-- The write attempt of `write_cache` (main.rs lines 223-236): nothing
touches the filesystem when there is no key; otherwise a (best-effort)
file write happens. -/
def write_cache : Option String → List Event
  | none => []
  | some _ => [Event.cacheFileWrite]

/-- The body of `refresh` as a function of the evaluator's result. -/
def refreshWith (writeCacheAfter : Bool) (cacheKey : Option String) :
    Except Unit (List Nat) → Except Unit (List Nat) × List Event
  | Except.error _ => (Except.error (), [Event.fullQuery])
  | Except.ok bytes =>
    (Except.ok bytes,
      Event.fullQuery :: (if writeCacheAfter then write_cache cacheKey else []))

/-- `refresh` (main.rs lines 85-97): the full-closure `nix eval`; a spawn
failure or non-zero exit panics (`Except.error`), success optionally
persists the bytes. -/
def refresh (env : Env) (writeCacheAfter : Bool) (cacheKey : Option String) :
    Except Unit (List Nat) × List Event :=
  refreshWith writeCacheAfter cacheKey env.evalResult

/-- The `.unwrap_or_else(|| refresh(true, cache_key))` fallback: a hit is
returned as-is, a miss re-derives via `refresh`. -/
def cacheFallback (env : Env) (cacheKey : Option String) :
    Option (List Nat) × List Event → Except Unit (List Nat) × List Event
  | (some bytes, evs) => (Except.ok bytes, evs)
  | (none, evs) =>
    ((refresh env true cacheKey).1, evs ++ (refresh env true cacheKey).2)

/-- The `bytes` acquisition of `main` (main.rs lines 30-38): TTL zero
re-derives with no cache; otherwise try the cache and fall back to a
caching re-derivation. -/
def cachePhase (env : Env) (ttl : Nat) (cacheKey : Option String) :
    Except Unit (List Nat) × List Event :=
  if ttl = 0 then refresh env false none
  else cacheFallback env cacheKey (read_cache env ttl cacheKey)

/-- The observable outcome of a non-panicking run: the single printed
line (without the trailing newline) and the exit code. -/
structure Outcome where
  stdoutLine : Option (List Nat)
  exitCode : Nat
deriving DecidableEq

/-- The tail of `main` (main.rs lines 57-62). -/
def emit (ordered : List (List Nat)) : Outcome :=
  if ordered = [] then ⟨none, 1⟩ else ⟨some (joinCS ordered), 0⟩

/-- The tail of the run: a panic during byte acquisition aborts, success
parses the hashes, reconciles the search path and emits the outcome. -/
def finishRun (env : Env) (keyEvs : List Event) :
    Except Unit (List Nat) × List Event → Except Unit Outcome × List Event
  | (Except.error _, evs) => (Except.error (), keyEvs ++ evs)
  | (Except.ok bytes, evs) =>
    (Except.ok (emit (reconcile (parse_hashes bytes) env.searchPath)),
      keyEvs ++ evs)

/-- The whole of `main` (main.rs lines 16-63): TTL parsing, conditional
cache-key query, byte acquisition, hash parsing, PATH reconciliation and
the final outcome; `Except.error` is a panic aborting the run. -/
def mainRun (env : Env) : Except Unit Outcome × List Event :=
  if 0 < parseTtl env.ttlStr then
    finishRun env (get_cache_key env).2
      (cachePhase env (parseTtl env.ttlStr) (get_cache_key env).1)
  else
    finishRun env [] (cachePhase env (parseTtl env.ttlStr) none)

/-- The cache key `main` hands to the byte acquisition (main.rs lines
24-28): the key query's result when TTL is positive, nothing when the
cache is disabled. -/
def mainCacheKey (env : Env) : Option String :=
  if 0 < parseTtl env.ttlStr then (get_cache_key env).1 else none

/-! ### Specification-side definitions (for refinement statements) -/

/-- Written from the spec: a dash byte at `i` immediately followed by an
ASCII digit ("scan the item left to right for the first occurrence of a
dash character immediately followed by an ASCII digit"). -/
def dashDigitAt (b : List Nat) (i : Nat) : Bool :=
  decide (b.get? i = some 0x2D) && (b.get? (i + 1)).any isDigitByte

/-- Written from the spec: the name an entry contributes if it parses and
passes the closure, exclusion-list and empty-name filters. -/
def survivor (ignore : List (List Nat)) (dir : List Nat) : Option (List Nat) :=
  match hash_and_name dir with
  | Except.ok (some (h, name)) =>
    if h ∈ ignore ∨ name ∈ SKIP ∨ name = [] then none else some name
  | _ => none

/-- Written from the spec: the names that survive parsing and filtering,
in scan order and before deduplication. -/
def acceptedNames (ignore : List (List Nat)) (path : List Nat) : List (List Nat) :=
  (splitPath path).filterMap (survivor ignore)

/-- Written from the spec: keep the first occurrence of each element not
already in `seen`, drop the rest. -/
def firstDedupGo {α : Type} [DecidableEq α] (seen : List α) : List α → List α
  | [] => []
  | n :: rest =>
    if n ∈ seen then firstDedupGo seen rest
    else n :: firstDedupGo (n :: seen) rest

/-- Written from the spec: first-occurrence deduplication. -/
def firstDedup {α : Type} [DecidableEq α] (l : List α) : List α :=
  firstDedupGo [] l

/-! ### Claim C4: TTL parsing (corrected) -/

/-- Counterexample to claim C4: a negative TTL string does not survive
`u64` parsing, so it is replaced by the default 3600 rather than used
unchanged. -/
theorem parseTtl_negative_is_default :
    parseTtl (some "-1") = 3600 ∧ parseU64 "-1" = none := by
  constructor <;> rfl

/-- Claim C4 (amended): an absent or unparseable TTL variable falls back
to the default 3600; any value that parses as a `u64` — hence any
nonnegative value below `2 ^ 64`, however large — is accepted as-is,
while a string with a leading minus sign never parses and also yields
the default. -/
theorem parseTtl_default_and_width :
    parseTtl none = 3600 ∧
    (∀ s : String, parseU64 s = none → parseTtl (some s) = 3600) ∧
    (∀ (s : String) (n : Nat), parseU64 s = some n →
      parseTtl (some s) = n ∧ n < 2 ^ 64) ∧
    (∀ s : String, s.data.head? = some '-' → parseTtl (some s) = 3600) := by
  refine ⟨rfl, ?_, ?_, ?_⟩
  · intro s h
    simp [parseTtl, h]
  · intro s n h
    refine ⟨by simp [parseTtl, h], ?_⟩
    simp only [parseU64] at h
    split_ifs at h <;>
      exact lt_of_eq_of_lt (Option.some.inj h).symm (by assumption)
  · intro s h
    have hnone : parseU64 s = none := by
      simp only [parseU64]
      cases hd : s.data with
      | nil => rw [hd] at h; exact absurd h (by simp)
      | cons c t =>
        rw [hd] at h
        simp only [List.head?_cons, Option.some.injEq] at h
        subst h
        have hplus : ¬ ('-' :: t).head? = some '+' := by
          simp only [List.head?_cons, Option.some.injEq]
          decide
        simp only [if_neg hplus]
        have hdig : ('-' :: t).all Char.isDigit = false := by
          rw [List.all_cons]
          rw [show '-'.isDigit = false from by decide]
          rw [Bool.false_and]
        rw [if_neg (fun hcon => by rw [hdig] at hcon; exact Bool.false_ne_true hcon.2)]
    simp [parseTtl, hnone]

/-- Witness for the amended C4 theorem at concrete inputs. -/
theorem parseTtl_default_and_width_witness :
    parseTtl none = 3600 ∧ parseTtl (some "abc") = 3600 ∧
    (parseTtl (some "12") = 12 ∧ 12 < 2 ^ 64) ∧ parseTtl (some "-5") = 3600 :=
  ⟨parseTtl_default_and_width.1,
   parseTtl_default_and_width.2.1 "abc" rfl,
   parseTtl_default_and_width.2.2.1 "12" 12 rfl,
   parseTtl_default_and_width.2.2.2 "-5" rfl⟩

/-! ### Claim C3: cache read freshness boundary -/

/-- Claim C3: with the entry for the key written at `tw` and the clock at
`env.now ≥ tw`, a cache read returns exactly the written bytes when the
age is at most the TTL (boundary inclusive) and reports a miss
otherwise. -/
theorem read_cache_ttl_boundary (env : Env) (k : String) (bytes : List Nat)
    (tw ttl : Nat) (hc : env.cache k = some (bytes, tw)) (hw : tw ≤ env.now)
    (_httl : 0 < ttl) :
    ((read_cache env ttl (some k)).1 = some bytes ↔ env.now - tw ≤ ttl) ∧
    (¬ env.now - tw ≤ ttl → (read_cache env ttl (some k)).1 = none) := by
  simp only [read_cache, hc, lookupFresh]
  by_cases hle : env.now - tw ≤ ttl
  · rw [if_pos ⟨hw, hle⟩]
    simp [hle]
  · rw [if_neg (fun hcon => hle hcon.2)]
    simp [hle]

/-- Witness for C3 at a concrete environment (write at 0, read at 5,
TTL 10: a hit). -/
theorem read_cache_ttl_boundary_witness :
    (((read_cache ⟨none, none, Except.ok [], fun _ => some ([7], 0), 5, []⟩
        10 (some "k")).1 = some [7]) ↔ (5 : Nat) - 0 ≤ 10) ∧
    (¬ (5 : Nat) - 0 ≤ 10 →
      (read_cache ⟨none, none, Except.ok [], fun _ => some ([7], 0), 5, []⟩
        10 (some "k")).1 = none) :=
  read_cache_ttl_boundary _ "k" [7] 0 10 rfl (by omega) (by omega)

/-! ### Claims C5, C6, C8: run-level cache and evaluator effects -/

/-- The cache-read helper never performs the full-closure query. -/
theorem fullQuery_not_mem_read_cache (env : Env) (ttl : Nat) (k : Option String) :
    Event.fullQuery ∉ (read_cache env ttl k).2 := by
  cases k with
  | none => simp [read_cache]
  | some key =>
    simp only [read_cache]
    cases env.cache key with
    | none => simp [lookupFresh]
    | some p =>
      obtain ⟨bytes, mtime⟩ := p
      simp only [lookupFresh]
      split <;> simp

/-- Claim C5: with TTL 0 the run never reads or writes a cache file and
performs the full-closure query exactly once. -/
theorem ttl_zero_no_cache_single_query (env : Env) (h : parseTtl env.ttlStr = 0) :
    (mainRun env).2.count Event.fullQuery = 1 ∧
    Event.cacheFileRead ∉ (mainRun env).2 ∧
    Event.cacheFileWrite ∉ (mainRun env).2 := by
  unfold mainRun
  rw [if_neg (by omega : ¬ 0 < parseTtl env.ttlStr)]
  unfold cachePhase
  rw [if_pos h]
  unfold refresh
  cases hv : env.evalResult <;> simp [refreshWith, finishRun]

/-- Witness for C5 at a concrete environment with TTL string "0". -/
theorem ttl_zero_no_cache_single_query_witness :
    (mainRun ⟨some "0", none, Except.ok [], fun _ => none, 0, []⟩).2.count
        Event.fullQuery = 1 ∧
    Event.cacheFileRead ∉
      (mainRun ⟨some "0", none, Except.ok [], fun _ => none, 0, []⟩).2 ∧
    Event.cacheFileWrite ∉
      (mainRun ⟨some "0", none, Except.ok [], fun _ => none, 0, []⟩).2 :=
  ttl_zero_no_cache_single_query _ rfl

/-- Claim C6: with TTL positive but the cache-key query failed, the run
neither reads nor writes any cache file and falls through to a single
full-closure query. -/
theorem key_failure_bypasses_cache (env : Env) (h1 : 0 < parseTtl env.ttlStr)
    (h2 : env.keyQueryResult = none) :
    (mainRun env).2.count Event.fullQuery = 1 ∧
    Event.cacheFileRead ∉ (mainRun env).2 ∧
    Event.cacheFileWrite ∉ (mainRun env).2 := by
  unfold mainRun
  rw [if_pos h1]
  simp only [get_cache_key, h2]
  unfold cachePhase
  rw [if_neg (Nat.pos_iff_ne_zero.mp h1)]
  simp only [read_cache, cacheFallback, refresh]
  cases hv : env.evalResult <;> simp [refreshWith, write_cache, finishRun]

/-- Witness for C6 at a concrete environment (TTL parses to 7, key query
failed). -/
theorem key_failure_bypasses_cache_witness :
    (mainRun ⟨some "7", none, Except.ok [], fun _ => none, 0, []⟩).2.count
        Event.fullQuery = 1 ∧
    Event.cacheFileRead ∉
      (mainRun ⟨some "7", none, Except.ok [], fun _ => none, 0, []⟩).2 ∧
    Event.cacheFileWrite ∉
      (mainRun ⟨some "7", none, Except.ok [], fun _ => none, 0, []⟩).2 :=
  key_failure_bypasses_cache _ (by decide) rfl

/-- Claim C8: if the full-closure invocation is performed during the run
and the evaluator fails, the whole run aborts (the panic is the
diagnostic-plus-failure-status exit); there is no continuation. -/
theorem eval_failure_aborts (env : Env) (h : env.evalResult = Except.error ())
    (hq : Event.fullQuery ∈ (mainRun env).2) :
    (mainRun env).1 = Except.error () := by
  by_cases h0 : parseTtl env.ttlStr = 0
  · unfold mainRun
    rw [if_neg (by omega : ¬ 0 < parseTtl env.ttlStr)]
    unfold cachePhase
    rw [if_pos h0]
    unfold refresh
    rw [h]
    simp [refreshWith, finishRun]
  · have h1 : 0 < parseTtl env.ttlStr := Nat.pos_of_ne_zero h0
    unfold mainRun at hq ⊢
    rw [if_pos h1] at hq ⊢
    simp only [get_cache_key] at hq ⊢
    unfold cachePhase at hq ⊢
    rw [if_neg h0] at hq ⊢
    have hnm := fullQuery_not_mem_read_cache env (parseTtl env.ttlStr) env.keyQueryResult
    cases hr : read_cache env (parseTtl env.ttlStr) env.keyQueryResult with
    | mk r evs =>
    rw [hr] at hq hnm
    cases r with
    | some bytes =>
      exfalso
      simp only [cacheFallback, finishRun] at hq
      rcases List.mem_append.mp hq with hq' | hq'
      · exact Event.noConfusion (List.mem_singleton.mp hq')
      · exact hnm hq'
    | none =>
      simp [cacheFallback, finishRun, refresh, h, refreshWith]

/-- Witness for C8: with TTL 0 and a failing evaluator, the single
full-closure query is attempted and the run aborts. -/
theorem eval_failure_aborts_witness :
    (mainRun ⟨some "0", none, Except.error (), fun _ => none, 0, []⟩).1 =
      Except.error () := by
  apply eval_failure_aborts
  · rfl
  · exact List.Mem.head _

/-! ### Claims C1, C10: the store-path parser -/

/-- Shifting `dashDigitAt` across a cons. -/
theorem dashDigitAt_cons_succ (a : Nat) (l : List Nat) (j : Nat) :
    dashDigitAt (a :: l) (j + 1) = dashDigitAt l j := by
  simp [dashDigitAt, List.get?_cons_succ]

/-- The cut index never exceeds the item length. -/
theorem findCut_le (b : List Nat) : findCut b ≤ b.length := by
  match b with
  | [] => simp [findCut]
  | [x] => simp [findCut]
  | x :: y :: rest =>
    rw [findCut]
    split
    · simp
    · have ih := findCut_le (y :: rest)
      simp only [List.length_cons] at ih ⊢
      omega

/-- No dash-digit boundary occurs strictly before the cut index. -/
theorem findCut_min (b : List Nat) :
    ∀ j, j < findCut b → dashDigitAt b j = false := by
  match b with
  | [] => intro j hj; simp [findCut] at hj
  | [x] =>
    intro j hj
    simp only [findCut] at hj
    have hj0 : j = 0 := by omega
    subst hj0
    simp [dashDigitAt]
  | x :: y :: rest =>
    intro j hj
    rw [findCut] at hj
    split at hj
    · omega
    · rename_i hcond
      cases j with
      | zero =>
        by_cases hx : x = 0x2D
        · have hdy : isDigitByte y = false := by
            cases hdy : isDigitByte y
            · rfl
            · exact absurd ⟨hx, hdy⟩ hcond
          simp [dashDigitAt, hx, hdy]
        · simp [dashDigitAt, hx]
      | succ j' =>
        rw [dashDigitAt_cons_succ]
        exact findCut_min (y :: rest) j' (by omega)

/-- The cut index is either the item length or an actual dash-digit
boundary. -/
theorem findCut_hit (b : List Nat) :
    findCut b = b.length ∨ dashDigitAt b (findCut b) = true := by
  match b with
  | [] => left; rfl
  | [x] => left; rfl
  | x :: y :: rest =>
    rw [findCut]
    split
    · rename_i hcond
      right
      simp [dashDigitAt, hcond.1, hcond.2]
    · rcases findCut_hit (y :: rest) with hc | hc
      · left; rw [hc]; simp
      · right; rw [dashDigitAt_cons_succ]; exact hc

/-- The cut index is always a character boundary of the item: it is
either the length, or the position of an ASCII dash byte. -/
theorem findCut_boundary (b : List Nat) : isCharBoundary b (findCut b) = true := by
  rcases findCut_hit b with hc | hc
  · rw [hc]
    by_cases hz : b.length = 0
    · simp [isCharBoundary, hz]
    · have hnone : b.get? b.length = none := List.get?_eq_none.mpr le_rfl
      simp [isCharBoundary, hz, hnone]
  · have hdash : b.get? (findCut b) = some 0x2D := by
      simp only [dashDigitAt, Bool.and_eq_true, decide_eq_true_eq] at hc
      exact hc.1
    by_cases hz : findCut b = 0
    · simp [isCharBoundary, hz]
    · unfold isCharBoundary
      rw [if_neg hz, hdash]
      rfl

/-- Claim C10: the store-path parser is total and never panics: on every
byte string (in particular any where offsets 11, 43 or 44 are not
character boundaries) it returns a pair or nothing, never the modelled
panic, because the version-cut position is always a valid character
boundary of the item. -/
theorem hash_and_name_no_panic (dir : List Nat) :
    (∃ r, hash_and_name dir = Except.ok r) ∧
    isCharBoundary (itemOf dir) (findCut (itemOf dir)) = true := by
  refine ⟨?_, findCut_boundary _⟩
  unfold hash_and_name
  split
  · exact ⟨none, rfl⟩
  · cases h1 : strSliceGet dir 11 43 with
    | none =>
      cases h2 : strSliceGet dir 44 dir.length <;> exact ⟨none, rfl⟩
    | some hashv =>
      cases h2 : strSliceGet dir 44 dir.length with
      | none => exact ⟨none, rfl⟩
      | some rest =>
        dsimp only
        rw [if_pos (findCut_boundary _)]
        exact ⟨_, rfl⟩

/-- Claim C1: for every accepted store path the returned name is the item
cut at the first dash-immediately-followed-by-digit position (no such
boundary occurs earlier, and the cut is either such a boundary or the
item's end, covering items with no version suffix). -/
theorem hash_and_name_version_cut (dir h name : List Nat)
    (hp : hash_and_name dir = Except.ok (some (h, name))) :
    (∀ j, j < findCut (itemOf dir) → dashDigitAt (itemOf dir) j = false) ∧
    (findCut (itemOf dir) = (itemOf dir).length ∨
      dashDigitAt (itemOf dir) (findCut (itemOf dir)) = true) ∧
    name = (itemOf dir).take (findCut (itemOf dir)) := by
  refine ⟨findCut_min _, findCut_hit _, ?_⟩
  unfold hash_and_name at hp
  split at hp
  · exact absurd hp (by simp)
  · cases h1 : strSliceGet dir 11 43 with
    | none =>
      rw [h1] at hp
      exact absurd hp (by simp)
    | some hashv =>
      cases h2 : strSliceGet dir 44 dir.length with
      | none =>
        rw [h1, h2] at hp
        exact absurd hp (by simp)
      | some rest =>
        rw [h1, h2] at hp
        dsimp only at hp
        rw [if_pos (findCut_boundary _)] at hp
        simp only [Except.ok.injEq, Option.some.injEq, Prod.mk.injEq] at hp
        obtain ⟨hh, hn⟩ := hp
        have hrest : rest = dir.drop 44 := by
          simp only [strSliceGet] at h2
          split at h2
          · rw [Option.some.injEq] at h2
            rw [← h2]
            rw [show dir.length - 44 = (dir.drop 44).length from
              (List.length_drop 44 dir).symm]
            exact List.take_length _
          · exact absurd h2 (by simp)
        subst hrest
        subst hn
        rfl

/-- Witness for C1: the cargo-watch scenario, where the dash inside
"cargo-watch" is skipped and the cut lands before "8.4.0". -/
theorem hash_and_name_version_cut_witness :
    hash_and_name
        (strBytes "/nix/store/12345678901234567890123456789012-cargo-watch-8.4.0/bin")
      = Except.ok (some (strBytes "12345678901234567890123456789012",
          strBytes "cargo-watch")) ∧
    strBytes "cargo-watch" =
      (itemOf (strBytes
          "/nix/store/12345678901234567890123456789012-cargo-watch-8.4.0/bin")).take
        (findCut (itemOf (strBytes
          "/nix/store/12345678901234567890123456789012-cargo-watch-8.4.0/bin"))) :=
  ⟨rfl,
   (hash_and_name_version_cut
      (strBytes "/nix/store/12345678901234567890123456789012-cargo-watch-8.4.0/bin")
      (strBytes "12345678901234567890123456789012")
      (strBytes "cargo-watch") rfl).2.2⟩

/-! ### UTF-8 structure lemmas (for claim C7) -/

/-- Unfolding equation of `validUtf8` on a cons cell. -/
theorem validUtf8_cons (b : Nat) (rest : List Nat) :
    validUtf8 (b :: rest) =
      (if b < 0x80 then validUtf8 rest
      else if 0xC2 ≤ b ∧ b ≤ 0xDF then
        match rest with
        | c :: r => isCont c && validUtf8 r
        | [] => false
      else if b = 0xE0 then
        match rest with
        | c1 :: c2 :: r => decide (0xA0 ≤ c1 ∧ c1 ≤ 0xBF) && isCont c2 && validUtf8 r
        | _ => false
      else if (0xE1 ≤ b ∧ b ≤ 0xEC) ∨ b = 0xEE ∨ b = 0xEF then
        match rest with
        | c1 :: c2 :: r => isCont c1 && isCont c2 && validUtf8 r
        | _ => false
      else if b = 0xED then
        match rest with
        | c1 :: c2 :: r => decide (0x80 ≤ c1 ∧ c1 ≤ 0x9F) && isCont c2 && validUtf8 r
        | _ => false
      else if b = 0xF0 then
        match rest with
        | c1 :: c2 :: c3 :: r =>
          decide (0x90 ≤ c1 ∧ c1 ≤ 0xBF) && isCont c2 && isCont c3 && validUtf8 r
        | _ => false
      else if 0xF1 ≤ b ∧ b ≤ 0xF3 then
        match rest with
        | c1 :: c2 :: c3 :: r => isCont c1 && isCont c2 && isCont c3 && validUtf8 r
        | _ => false
      else if b = 0xF4 then
        match rest with
        | c1 :: c2 :: c3 :: r =>
          decide (0x80 ≤ c1 ∧ c1 ≤ 0x8F) && isCont c2 && isCont c3 && validUtf8 r
        | _ => false
      else false) := by
  cases rest with
  | nil => rfl
  | cons c1 t1 =>
    cases t1 with
    | nil => rfl
    | cons c2 t2 =>
      cases t2 with
      | nil => rfl
      | cons c3 r => rfl

/-- A valid UTF-8 byte string decomposes as a first chunk followed by a
valid remainder; the chunk is nonempty, all its bytes after the first
are continuation bytes, its first byte is ASCII or a lead byte, and an
ASCII first byte means the chunk is that single byte. -/
theorem validUtf8_inversion (b : Nat) (t : List Nat)
    (hv : validUtf8 (b :: t) = true) :
    ∃ c rest, b :: t = c ++ rest ∧ validUtf8 rest = true ∧ c ≠ [] ∧
      (∀ j x, c.get? (j + 1) = some x → isCont x = true) ∧
      (b < 0x80 ∨ 0xC2 ≤ b) ∧
      (b < 0x80 → c = [b]) := by
  rw [validUtf8_cons] at hv
  by_cases h1 : b < 0x80
  · rw [if_pos h1] at hv
    exact ⟨[b], t, rfl, hv, by simp, fun j x hx => by simp at hx,
      Or.inl h1, fun _ => rfl⟩
  · rw [if_neg h1] at hv
    by_cases h2 : 0xC2 ≤ b ∧ b ≤ 0xDF
    · rw [if_pos h2] at hv
      cases t with
      | nil => exact Bool.noConfusion hv
      | cons c1 r =>
        simp only [Bool.and_eq_true] at hv
        obtain ⟨hc1, hr⟩ := hv
        refine ⟨[b, c1], r, rfl, hr, by simp, ?_, Or.inr h2.1,
          fun hlt => absurd hlt (by omega)⟩
        intro j x hx
        rw [List.get?_cons_succ] at hx
        cases j with
        | zero =>
          rw [List.get?_cons_zero, Option.some.injEq] at hx
          subst hx
          exact hc1
        | succ j' => simp at hx
    · rw [if_neg h2] at hv
      by_cases h3 : b = 0xE0
      · rw [if_pos h3] at hv
        cases t with
        | nil => exact Bool.noConfusion hv
        | cons c1 t1 =>
          cases t1 with
          | nil => exact Bool.noConfusion hv
          | cons c2 r =>
            simp only [Bool.and_eq_true, decide_eq_true_eq] at hv
            obtain ⟨⟨hc1, hc2⟩, hr⟩ := hv
            refine ⟨[b, c1, c2], r, rfl, hr, by simp, ?_, Or.inr (by omega),
              fun hlt => absurd hlt (by omega)⟩
            intro j x hx
            rw [List.get?_cons_succ] at hx
            cases j with
            | zero =>
              rw [List.get?_cons_zero, Option.some.injEq] at hx
              subst hx
              simp only [isCont, decide_eq_true_eq]
              omega
            | succ j' =>
              rw [List.get?_cons_succ] at hx
              cases j' with
              | zero =>
                rw [List.get?_cons_zero, Option.some.injEq] at hx
                subst hx
                exact hc2
              | succ j'' => simp at hx
      · rw [if_neg h3] at hv
        by_cases h4 : (0xE1 ≤ b ∧ b ≤ 0xEC) ∨ b = 0xEE ∨ b = 0xEF
        · rw [if_pos h4] at hv
          cases t with
          | nil => exact Bool.noConfusion hv
          | cons c1 t1 =>
            cases t1 with
            | nil => exact Bool.noConfusion hv
            | cons c2 r =>
              simp only [Bool.and_eq_true] at hv
              obtain ⟨⟨hc1, hc2⟩, hr⟩ := hv
              refine ⟨[b, c1, c2], r, rfl, hr, by simp, ?_, Or.inr (by omega),
                fun hlt => absurd hlt (by omega)⟩
              intro j x hx
              rw [List.get?_cons_succ] at hx
              cases j with
              | zero =>
                rw [List.get?_cons_zero, Option.some.injEq] at hx
                subst hx
                exact hc1
              | succ j' =>
                rw [List.get?_cons_succ] at hx
                cases j' with
                | zero =>
                  rw [List.get?_cons_zero, Option.some.injEq] at hx
                  subst hx
                  exact hc2
                | succ j'' => simp at hx
        · rw [if_neg h4] at hv
          by_cases h5 : b = 0xED
          · rw [if_pos h5] at hv
            cases t with
            | nil => exact Bool.noConfusion hv
            | cons c1 t1 =>
              cases t1 with
              | nil => exact Bool.noConfusion hv
              | cons c2 r =>
                simp only [Bool.and_eq_true, decide_eq_true_eq] at hv
                obtain ⟨⟨hc1, hc2⟩, hr⟩ := hv
                refine ⟨[b, c1, c2], r, rfl, hr, by simp, ?_, Or.inr (by omega),
                  fun hlt => absurd hlt (by omega)⟩
                intro j x hx
                rw [List.get?_cons_succ] at hx
                cases j with
                | zero =>
                  rw [List.get?_cons_zero, Option.some.injEq] at hx
                  subst hx
                  simp only [isCont, decide_eq_true_eq]
                  omega
                | succ j' =>
                  rw [List.get?_cons_succ] at hx
                  cases j' with
                  | zero =>
                    rw [List.get?_cons_zero, Option.some.injEq] at hx
                    subst hx
                    exact hc2
                  | succ j'' => simp at hx
          · rw [if_neg h5] at hv
            by_cases h6 : b = 0xF0
            · rw [if_pos h6] at hv
              cases t with
              | nil => exact Bool.noConfusion hv
              | cons c1 t1 =>
                cases t1 with
                | nil => exact Bool.noConfusion hv
                | cons c2 t2 =>
                  cases t2 with
                  | nil => exact Bool.noConfusion hv
                  | cons c3 r =>
                    simp only [Bool.and_eq_true, decide_eq_true_eq] at hv
                    obtain ⟨⟨⟨hc1, hc2⟩, hc3⟩, hr⟩ := hv
                    refine ⟨[b, c1, c2, c3], r, rfl, hr, by simp, ?_,
                      Or.inr (by omega), fun hlt => absurd hlt (by omega)⟩
                    intro j x hx
                    rw [List.get?_cons_succ] at hx
                    cases j with
                    | zero =>
                      rw [List.get?_cons_zero, Option.some.injEq] at hx
                      subst hx
                      simp only [isCont, decide_eq_true_eq]
                      omega
                    | succ j' =>
                      rw [List.get?_cons_succ] at hx
                      cases j' with
                      | zero =>
                        rw [List.get?_cons_zero, Option.some.injEq] at hx
                        subst hx
                        exact hc2
                      | succ j'' =>
                        rw [List.get?_cons_succ] at hx
                        cases j'' with
                        | zero =>
                          rw [List.get?_cons_zero, Option.some.injEq] at hx
                          subst hx
                          exact hc3
                        | succ j''' => simp at hx
            · rw [if_neg h6] at hv
              by_cases h7 : 0xF1 ≤ b ∧ b ≤ 0xF3
              · rw [if_pos h7] at hv
                cases t with
                | nil => exact Bool.noConfusion hv
                | cons c1 t1 =>
                  cases t1 with
                  | nil => exact Bool.noConfusion hv
                  | cons c2 t2 =>
                    cases t2 with
                    | nil => exact Bool.noConfusion hv
                    | cons c3 r =>
                      simp only [Bool.and_eq_true] at hv
                      obtain ⟨⟨⟨hc1, hc2⟩, hc3⟩, hr⟩ := hv
                      refine ⟨[b, c1, c2, c3], r, rfl, hr, by simp, ?_,
                        Or.inr (by omega), fun hlt => absurd hlt (by omega)⟩
                      intro j x hx
                      rw [List.get?_cons_succ] at hx
                      cases j with
                      | zero =>
                        rw [List.get?_cons_zero, Option.some.injEq] at hx
                        subst hx
                        exact hc1
                      | succ j' =>
                        rw [List.get?_cons_succ] at hx
                        cases j' with
                        | zero =>
                          rw [List.get?_cons_zero, Option.some.injEq] at hx
                          subst hx
                          exact hc2
                        | succ j'' =>
                          rw [List.get?_cons_succ] at hx
                          cases j'' with
                          | zero =>
                            rw [List.get?_cons_zero, Option.some.injEq] at hx
                            subst hx
                            exact hc3
                          | succ j''' => simp at hx
              · rw [if_neg h7] at hv
                by_cases h8 : b = 0xF4
                · rw [if_pos h8] at hv
                  cases t with
                  | nil => exact Bool.noConfusion hv
                  | cons c1 t1 =>
                    cases t1 with
                    | nil => exact Bool.noConfusion hv
                    | cons c2 t2 =>
                      cases t2 with
                      | nil => exact Bool.noConfusion hv
                      | cons c3 r =>
                        simp only [Bool.and_eq_true, decide_eq_true_eq] at hv
                        obtain ⟨⟨⟨hc1, hc2⟩, hc3⟩, hr⟩ := hv
                        refine ⟨[b, c1, c2, c3], r, rfl, hr, by simp, ?_,
                          Or.inr (by omega), fun hlt => absurd hlt (by omega)⟩
                        intro j x hx
                        rw [List.get?_cons_succ] at hx
                        cases j with
                        | zero =>
                          rw [List.get?_cons_zero, Option.some.injEq] at hx
                          subst hx
                          simp only [isCont, decide_eq_true_eq]
                          omega
                        | succ j' =>
                          rw [List.get?_cons_succ] at hx
                          cases j' with
                          | zero =>
                            rw [List.get?_cons_zero, Option.some.injEq] at hx
                            subst hx
                            exact hc2
                          | succ j'' =>
                            rw [List.get?_cons_succ] at hx
                            cases j'' with
                            | zero =>
                              rw [List.get?_cons_zero, Option.some.injEq] at hx
                              subst hx
                              exact hc3
                            | succ j''' => simp at hx
                · rw [if_neg h8] at hv
                  exact Bool.noConfusion hv

/-- The first byte of a valid UTF-8 string is never a continuation
byte. -/
theorem validUtf8_headNonCont (l : List Nat) (hv : validUtf8 l = true)
    (b : Nat) (hb : l.get? 0 = some b) : isCont b = false := by
  cases l with
  | nil => simp at hb
  | cons x t =>
    rw [List.get?_cons_zero, Option.some.injEq] at hb
    subst hb
    obtain ⟨c, rest, _, _, _, _, hhead, _⟩ := validUtf8_inversion x t hv
    simp only [isCont, decide_eq_false_iff_not]
    omega

/-- In a valid UTF-8 string, the position after an ASCII byte carries no
continuation byte: the byte after an ASCII byte, if any, starts a new
character. -/
theorem validUtf8_ascii_succ (l : List Nat) (hv : validUtf8 l = true)
    (i b b' : Nat) (hb : l.get? i = some b) (hlt : b < 0x80)
    (hb' : l.get? (i + 1) = some b') : isCont b' = false := by
  cases l with
  | nil => simp at hb
  | cons x t =>
    obtain ⟨c, rest, heq, hrest, hcne, hcont, hhead, hascii⟩ :=
      validUtf8_inversion x t hv
    by_cases hik : i < c.length
    · have hci : c.get? i = some b := by
        rw [heq] at hb
        rwa [List.get?_append hik] at hb
      cases i with
      | zero =>
        have hxb : x = b := by
          cases c with
          | nil => exact absurd rfl hcne
          | cons c0 c' =>
            have hc0 : c0 = x := by
              have := congrArg (fun l => List.get? l 0) heq
              simp at this
              exact this.symm
            rw [List.get?_cons_zero, Option.some.injEq] at hci
            rw [← hci, hc0]
        subst hxb
        have hc1 : c = [x] := hascii hlt
        rw [heq, hc1] at hb'
        rw [List.get?_append_right (by simp)] at hb'
        simp only [List.length_singleton] at hb'
        exact validUtf8_headNonCont rest hrest b' hb'
      | succ j =>
        have hcb := hcont j b hci
        simp only [isCont, decide_eq_true_eq] at hcb
        exact absurd hlt (by omega)
    · push_neg at hik
      have h1 : rest.get? (i - c.length) = some b := by
        rw [heq] at hb
        rwa [List.get?_append_right hik] at hb
      have h2 : rest.get? (i - c.length + 1) = some b' := by
        rw [heq] at hb'
        rw [List.get?_append_right (by omega)] at hb'
        rwa [show i + 1 - c.length = i - c.length + 1 by omega] at hb'
      exact validUtf8_ascii_succ rest hrest (i - c.length) b b' h1 hlt h2
termination_by i
decreasing_by
  have hcpos : 0 < c.length := List.length_pos.mpr hcne
  omega

/-! ### Claim C7: rejection condition of the store-path parser -/

/-- Claim C7: on any byte string that is valid UTF-8 (i.e. any Rust
`&str`), the parser returns nothing exactly when the string lacks the
`"/nix/store/"` lead, is shorter than 44 bytes, or does not carry the
dash separator at byte 43; in particular every non-store-shaped string
is rejected. -/
theorem store_path_reject_iff (dir : List Nat) (hv : validUtf8 dir = true) :
    hash_and_name dir = Except.ok none ↔
      (dir.take 11 ≠ nixStoreRoot ∨ dir.length < 44 ∨
        dir.get? 43 ≠ some 0x2D) := by
  constructor
  · intro hres
    by_contra hcond
    push_neg at hcond
    obtain ⟨hpre, hlen, hdash⟩ := hcond
    have h10 : dir.get? 10 = some 0x2F := by
      have h1 : (dir.take 11).get? 10 = some 0x2F := by rw [hpre]; rfl
      rwa [List.get?_take (by omega)] at h1
    have h11 : ∃ x, dir.get? 11 = some x := by
      cases hx : dir.get? 11 with
      | none => exact absurd (List.get?_eq_none.mp hx) (by omega)
      | some x => exact ⟨x, rfl⟩
    obtain ⟨x11, hx11⟩ := h11
    have hb11 : isCharBoundary dir 11 = true := by
      have hnc := validUtf8_ascii_succ dir hv 10 0x2F x11 h10 (by omega) hx11
      unfold isCharBoundary
      rw [if_neg (by omega : ¬ (11 : Nat) = 0), hx11]
      simp [hnc]
    have hb43 : isCharBoundary dir 43 = true := by
      unfold isCharBoundary
      rw [if_neg (by omega : ¬ (43 : Nat) = 0), hdash]
      rfl
    have hb44 : isCharBoundary dir 44 = true := by
      cases h44 : dir.get? 44 with
      | none =>
        have hle : dir.length ≤ 44 := List.get?_eq_none.mp h44
        unfold isCharBoundary
        rw [if_neg (by omega : ¬ (44 : Nat) = 0), h44]
        simp only [decide_eq_true_eq]
        omega
      | some x44 =>
        have hnc := validUtf8_ascii_succ dir hv 43 0x2D x44 hdash (by omega) h44
        unfold isCharBoundary
        rw [if_neg (by omega : ¬ (44 : Nat) = 0), h44]
        simp [hnc]
    have hblen : isCharBoundary dir dir.length = true := by
      by_cases hz : dir.length = 0
      · unfold isCharBoundary
        rw [if_pos hz]
      · unfold isCharBoundary
        rw [if_neg hz, List.get?_eq_none.mpr le_rfl]
        simp
    have hs1 : strSliceGet dir 11 43 = some ((dir.drop 11).take (43 - 11)) := by
      unfold strSliceGet
      rw [if_pos ⟨by omega, hb11, hb43⟩]
    have hs2 : strSliceGet dir 44 dir.length =
        some ((dir.drop 44).take (dir.length - 44)) := by
      unfold strSliceGet
      rw [if_pos ⟨by omega, hb44, hblen⟩]
    unfold hash_and_name at hres
    rw [if_neg (by push_neg; exact ⟨hpre, by omega, hdash⟩)] at hres
    rw [hs1, hs2] at hres
    dsimp only at hres
    rw [if_pos (findCut_boundary _)] at hres
    exact absurd hres (by simp)
  · intro hcond
    unfold hash_and_name
    rw [if_pos hcond]

/-- Witness for C7 at the concrete non-store path "/usr/bin". -/
theorem store_path_reject_iff_witness :
    hash_and_name (strBytes "/usr/bin") = Except.ok none ↔
      ((strBytes "/usr/bin").take 11 ≠ nixStoreRoot ∨
        (strBytes "/usr/bin").length < 44 ∨
        (strBytes "/usr/bin").get? 43 ≠ some 0x2D) :=
  store_path_reject_iff (strBytes "/usr/bin") (by decide)

/-! ### Claim C2: reconciler order and deduplication -/

/-- First-occurrence deduplication yields no duplicates, and nothing
already marked seen. -/
theorem firstDedupGo_nodup_disjoint {α : Type} [DecidableEq α]
    (l seen : List α) :
    (firstDedupGo seen l).Nodup ∧ ∀ x ∈ firstDedupGo seen l, x ∉ seen := by
  induction l generalizing seen with
  | nil => simp [firstDedupGo]
  | cons n rest ih =>
    by_cases hn : n ∈ seen
    · simp only [firstDedupGo]
      rw [if_pos hn]
      exact ih seen
    · simp only [firstDedupGo]
      rw [if_neg hn]
      obtain ⟨h1, h2⟩ := ih (n :: seen)
      refine ⟨List.nodup_cons.mpr
        ⟨fun hmem => (h2 n hmem) (List.mem_cons_self n seen), h1⟩, ?_⟩
      intro x hx
      rcases List.mem_cons.mp hx with rfl | hx'
      · exact hn
      · intro hxseen
        exact (h2 x hx') (List.mem_cons_of_mem _ hxseen)

/-- Dropping a later duplicate (already in the prefix or already seen)
does not change the deduplicated output. -/
theorem firstDedupGo_dup_drop {α : Type} [DecidableEq α] (pre : List α)
    (seen : List α) (name : α) (post : List α)
    (hmem : name ∈ pre ∨ name ∈ seen) :
    firstDedupGo seen (pre ++ name :: post) = firstDedupGo seen (pre ++ post) := by
  induction pre generalizing seen with
  | nil =>
    rcases hmem with hmem | hmem
    · simp at hmem
    · simp only [List.nil_append, firstDedupGo]
      rw [if_pos hmem]
  | cons a pre' ih =>
    simp only [List.cons_append, firstDedupGo]
    by_cases ha : a ∈ seen
    · rw [if_pos ha, if_pos ha]
      apply ih
      rcases hmem with hmem | hmem
      · rcases List.mem_cons.mp hmem with rfl | h'
        · exact Or.inr ha
        · exact Or.inl h'
      · exact Or.inr hmem
    · rw [if_neg ha, if_neg ha]
      congr 1
      apply ih
      rcases hmem with hmem | hmem
      · rcases List.mem_cons.mp hmem with rfl | h'
        · exact Or.inr (List.mem_cons_self _ seen)
        · exact Or.inl h'
      · exact Or.inr (List.mem_cons_of_mem _ hmem)

/-- The reconciler loop is exactly first-occurrence deduplication of the
surviving names, appended to the accumulator. -/
theorem reconcileGo_eq (ignore : List (List Nat)) (entries : List (List Nat)) :
    ∀ seen ordered, reconcileGo ignore seen ordered entries =
      ordered ++ firstDedupGo seen (entries.filterMap (survivor ignore)) := by
  induction entries with
  | nil => intro seen ordered; simp [reconcileGo, firstDedupGo]
  | cons dir rest ih =>
    intro seen ordered
    cases hh : hash_and_name dir with
    | error e =>
      have hs : survivor ignore dir = none := by simp [survivor, hh]
      simp only [reconcileGo, hh, List.filterMap_cons, hs]
      exact ih seen ordered
    | ok o =>
      cases o with
      | none =>
        have hs : survivor ignore dir = none := by simp [survivor, hh]
        simp only [reconcileGo, hh, List.filterMap_cons, hs]
        exact ih seen ordered
      | some p =>
        obtain ⟨hsh, name⟩ := p
        by_cases hskip : hsh ∈ ignore ∨ name ∈ SKIP ∨ name = []
        · have hs : survivor ignore dir = none := by
            simp only [survivor, hh]
            rw [if_pos hskip]
          simp only [reconcileGo, hh, List.filterMap_cons, hs]
          rw [if_pos hskip]
          exact ih seen ordered
        · have hs : survivor ignore dir = some name := by
            simp only [survivor, hh]
            rw [if_neg hskip]
          simp only [reconcileGo, hh, List.filterMap_cons, hs]
          rw [if_neg hskip]
          simp only [firstDedupGo]
          by_cases hseen : name ∈ seen
          · rw [if_pos hseen, if_pos hseen]
            exact ih seen ordered
          · rw [if_neg hseen, if_neg hseen]
            rw [ih (name :: seen) (ordered ++ [name])]
            simp

/-- Claim C2: for every closure set and every search path (split on ':'
with empty segments skipped), the output is the first-occurrence
deduplication of the surviving names — each distinct surviving name
appears exactly once, in first-accepted-occurrence order, and a later
duplicate of an already-present name never changes the output. -/
theorem reconcile_first_seen (ignore : List (List Nat)) (path : List Nat) :
    reconcile ignore path = firstDedup (acceptedNames ignore path) ∧
    (reconcile ignore path).Nodup ∧
    (∀ (pre post : List (List Nat)) (name : List Nat), name ∈ pre →
      firstDedup (pre ++ name :: post) = firstDedup (pre ++ post)) := by
  have key : reconcile ignore path = firstDedup (acceptedNames ignore path) := by
    simpa [reconcile, firstDedup, acceptedNames] using
      reconcileGo_eq ignore (splitPath path) [] []
  refine ⟨key, ?_, ?_⟩
  · rw [key]
    exact (firstDedupGo_nodup_disjoint _ []).1
  · intro pre post name hmem
    exact firstDedupGo_dup_drop pre [] name post (Or.inl hmem)

/-- Witness for C2 at a concrete search path and a concrete duplicate. -/
theorem reconcile_first_seen_witness :
    reconcile []
        (strBytes "/nix/store/12345678901234567890123456789012-bash-5.2/bin")
      = firstDedup (acceptedNames []
          (strBytes "/nix/store/12345678901234567890123456789012-bash-5.2/bin")) ∧
    (reconcile []
        (strBytes "/nix/store/12345678901234567890123456789012-bash-5.2/bin")).Nodup ∧
    firstDedup ([strBytes "bash"] ++ strBytes "bash" :: []) =
      firstDedup ([strBytes "bash"] ++ []) := by
  obtain ⟨h1, h2, h3⟩ := reconcile_first_seen []
    (strBytes "/nix/store/12345678901234567890123456789012-bash-5.2/bin")
  exact ⟨h1, h2,
    h3 [strBytes "bash"] [] (strBytes "bash") (List.mem_singleton.mpr rfl)⟩

/-! ### Claim C9: the two non-fatal outcomes -/

/-- Claim C9: a run that does not abort takes its bytes from the cache
phase, its outcome is `emit` of exactly the list reconciled from those
bytes and the search path, and the mapping is conditional both ways: a
non-empty reconciled list is printed joined by comma-and-space with the
success status 0, an empty one prints nothing and exits with the
distinct non-success status 1 — so those are the only two non-fatal
outcomes. -/
theorem run_two_outcomes (env : Env) (out : Outcome) (evs : List Event)
    (hrun : mainRun env = (Except.ok out, evs)) :
    ∃ bytes,
      (cachePhase env (parseTtl env.ttlStr) (mainCacheKey env)).1
        = Except.ok bytes ∧
      out = emit (reconcile (parse_hashes bytes) env.searchPath) ∧
      (reconcile (parse_hashes bytes) env.searchPath ≠ [] →
        out = ⟨some (joinCS (reconcile (parse_hashes bytes) env.searchPath)), 0⟩) ∧
      (reconcile (parse_hashes bytes) env.searchPath = [] → out = ⟨none, 1⟩) ∧
      (out = ⟨some (joinCS (reconcile (parse_hashes bytes) env.searchPath)), 0⟩ ∨
        out = ⟨none, 1⟩) := by
  have hkey : ∃ bytes,
      (cachePhase env (parseTtl env.ttlStr) (mainCacheKey env)).1
        = Except.ok bytes ∧
      out = emit (reconcile (parse_hashes bytes) env.searchPath) := by
    unfold mainRun at hrun
    unfold mainCacheKey
    by_cases h0 : 0 < parseTtl env.ttlStr
    · rw [if_pos h0] at hrun ⊢
      cases hcp : cachePhase env (parseTtl env.ttlStr) (get_cache_key env).1 with
      | mk r evs2 =>
      rw [hcp] at hrun
      cases r with
      | error e => simp [finishRun] at hrun
      | ok bytes =>
        simp only [finishRun, Prod.mk.injEq] at hrun
        exact ⟨bytes, rfl, (Except.ok.inj hrun.1).symm⟩
    · rw [if_neg h0] at hrun ⊢
      cases hcp : cachePhase env (parseTtl env.ttlStr) none with
      | mk r evs2 =>
      rw [hcp] at hrun
      cases r with
      | error e => simp [finishRun] at hrun
      | ok bytes =>
        simp only [finishRun, Prod.mk.injEq] at hrun
        exact ⟨bytes, rfl, (Except.ok.inj hrun.1).symm⟩
  obtain ⟨bytes, hcp1, hout⟩ := hkey
  have hne : reconcile (parse_hashes bytes) env.searchPath ≠ [] →
      out = ⟨some (joinCS (reconcile (parse_hashes bytes) env.searchPath)), 0⟩ := by
    intro hn
    rw [hout]
    unfold emit
    rw [if_neg hn]
  have hem : reconcile (parse_hashes bytes) env.searchPath = [] →
      out = ⟨none, 1⟩ := by
    intro hn
    rw [hout]
    unfold emit
    rw [if_pos hn]
  refine ⟨bytes, hcp1, hout, hne, hem, ?_⟩
  by_cases hn : reconcile (parse_hashes bytes) env.searchPath = []
  · exact Or.inr (hem hn)
  · exact Or.inl (hne hn)

/-- Witness for C9: a concrete run (TTL 0, empty PATH, empty evaluator
output) whose empty reconciled list maps to the no-output, status-1
outcome. -/
theorem run_two_outcomes_witness :
    ∃ bytes,
      (cachePhase ⟨some "0", none, Except.ok [], fun _ => none, 0, []⟩
          (parseTtl (some "0"))
          (mainCacheKey ⟨some "0", none, Except.ok [], fun _ => none, 0, []⟩)).1
        = Except.ok bytes ∧
      Outcome.mk none 1 = emit (reconcile (parse_hashes bytes) []) ∧
      (reconcile (parse_hashes bytes) [] ≠ [] →
        Outcome.mk none 1 =
          ⟨some (joinCS (reconcile (parse_hashes bytes) [])), 0⟩) ∧
      (reconcile (parse_hashes bytes) [] = [] → Outcome.mk none 1 = ⟨none, 1⟩) ∧
      (Outcome.mk none 1 =
          ⟨some (joinCS (reconcile (parse_hashes bytes) [])), 0⟩ ∨
        Outcome.mk none 1 = ⟨none, 1⟩) :=
  run_two_outcomes ⟨some "0", none, Except.ok [], fun _ => none, 0, []⟩
    ⟨none, 1⟩ [Event.fullQuery] rfl

end NixPathPkgs
